import Mathlib

/-!
Verification of the README-driven transformation engine of `xelm.ts`
(the current revision of the script, the one embedded in `shell.nix`;
`src/xelm.ts` at the repository root is an older revision of the same file).

The embedding is shallow: JavaScript strings are Lean `String`s and the
string-processing primitives the script uses (`split`, `trim`, `replace`,
`replaceAll`, regular expressions over individually-escaped literal
patterns) are modelled character-by-character over `List Char`.  A compiled
regular expression whose pattern is a fully escaped literal is represented
by the literal text it matches, so the `escapeRegExp` step of the source has
no separate counterpart here: escaping is exactly what justifies the literal
representation.  File-system access (`fs.exists`, `Deno.stat`,
`Deno.readTextFile`) is modelled by an explicit file-system record, and the
markdown tokenizer (`marked.lexer`) by an abstract token stream, since both
are external collaborators of the code under specification.
-/

/-- Whitespace test modelling the ASCII part of JavaScript's `\s` class and
`String.prototype.trim`. -/
def isWs (c : Char) : Bool :=
  c = ' ' || c = '\t' || c = '\n' || c = '\r' ||
  c = Char.ofNat 11 || c = Char.ofNat 12

/-- Drop whitespace from both ends, modelling `String.prototype.trim`. -/
def trimL (s : List Char) : List Char :=
  ((s.dropWhile isWs).reverse.dropWhile isWs).reverse

/-- Split at every occurrence of a separator character, keeping empty
segments, modelling `String.prototype.split(sep)` for a one-character
separator. -/
def splitSepL (sep : Char) : List Char → List (List Char)
  | [] => [[]]
  | c :: cs =>
    if c = sep then [] :: splitSepL sep cs
    else
      match splitSepL sep cs with
      | l :: ls => (c :: l) :: ls
      | [] => [[c]]

/-- Split on runs of whitespace, keeping empty segments between consecutive
whitespace characters. -/
def splitWsL : List Char → List (List Char)
  | [] => [[]]
  | c :: cs =>
    if isWs c then [] :: splitWsL cs
    else
      match splitWsL cs with
      | l :: ls => (c :: l) :: ls
      | [] => [[c]]

/-- The word list of a line, modelling `line.trim().split(/\s+/)` on a line
with at least one word (on the all-whitespace line JavaScript yields `[""]`
while this yields `[]`; both fail the `parts[0] === "//"` marker test the
result feeds, so the difference is unobservable). -/
def wordsOf (s : List Char) : List (List Char) :=
  (splitWsL (trimL s)).filter (fun w => !w.isEmpty)

/-- Concatenate lines with `"\n"`, modelling `Array.prototype.join("\n")`. -/
def joinLinesL : List (List Char) → List Char
  | [] => []
  | [l] => l
  | l :: ls => l ++ '\n' :: joinLinesL ls

/-- Replace the first occurrence of `pat` by `repl`, modelling
`String.prototype.replace(pat, repl)` for a string pattern. -/
def replaceFirstL (pat repl : List Char) : List Char → List Char
  | [] => if pat.isEmpty then repl else []
  | c :: rest =>
    if pat.isEmpty then repl ++ c :: rest
    else if pat.isPrefixOf (c :: rest) then repl ++ (c :: rest).drop pat.length
    else c :: replaceFirstL pat repl rest

/-- Worker for `replaceAllL`, structurally recursive on an explicit bound.
The bound never runs out when it starts at the length of the subject string,
because every step consumes at least one character. -/
def replaceAllGo (pat repl : List Char) : Nat → List Char → List Char
  | _, [] => []
  | 0, s => s
  | fuel + 1, c :: rest =>
    if !pat.isEmpty && pat.isPrefixOf (c :: rest) then
      repl ++ replaceAllGo pat repl fuel (rest.drop (pat.length - 1))
    else c :: replaceAllGo pat repl fuel rest

/-- Replace every (non-overlapping, leftmost-first) occurrence of the
nonempty literal `pat` by `repl`, modelling `String.prototype.replaceAll` for
a string pattern as well as for a global regular expression over an escaped
literal.  For an empty `pat` the subject is returned unchanged; the script
never builds an empty pattern in the situations the theorems below cover. -/
def replaceAllL (pat repl s : List Char) : List Char :=
  replaceAllGo pat repl s.length s

/-- Find-and-replace rule, from the `Transform` interface of the script. -/
structure Transform where
  find : String
  replace : String
deriving DecidableEq, Repr

/-- The slice of the post-processing configuration the conditional
preprocessor reads: the two boolean flags `config.debug` and `config.test`
(`vars = ["debug", "test"]` in the source). -/
structure Config where
  debug : Bool
  test : Bool
deriving DecidableEq, Repr

/-- The flag names the preprocessor recognizes, from
`const vars = ["debug", "test"]`. -/
def varsDSL : List String := ["debug", "test"]

/-- Value of `config[flag] ?? false` for a flag name held on the stack. -/
def lookupFlag (config : Config) (flag : String) : Bool :=
  if flag = "debug" then config.debug
  else if flag = "test" then config.test
  else false

/-- One open conditional block: the flag name and the truth value the flag
must have for the block's lines to be kept (`{ flag, cond }` in the
source). -/
structure CondScope where
  flag : String
  cond : Bool
deriving DecidableEq, Repr

/-- Classification of one line of preprocessor input, mirroring the marker
test `const [comment, cond, flag] = line.trim().split(/\s+/)` followed by
the `@IF` / `@UNLESS` / `@END` else-if chain. -/
inductive LineKind where
  | push (flag : String) (cond : Bool)
  | pop
  | content
deriving DecidableEq, Repr

/-- Whether the third word is a recognized flag name
(`vars.includes(flag)`; an absent third word is `undefined`, which is not
included). -/
def flagOk (w : Option String) : Bool :=
  match w with
  | some f => varsDSL.contains f
  | none => false

/-- Decide whether a line is an `@IF` / `@UNLESS` / `@END` marker or a
content line, exactly in the order the source tests. -/
def classify (line : List Char) : LineKind :=
  let parts := (wordsOf line).map (fun w => String.mk w)
  if parts[0]? = some "//" then
    if parts[1]? = some "@IF" ∧ flagOk parts[2]? then
      .push ((parts[2]?).getD "") true
    else if parts[1]? = some "@UNLESS" ∧ flagOk parts[2]? then
      .push ((parts[2]?).getD "") false
    else if parts[1]? = some "@END" then .pop
    else .content
  else .content

/-- The line loop of `preprocess`, carrying the stack of open conditional
blocks.  `@IF f` pushes `{f, true}`, `@UNLESS f` pushes `{f, false}`, `@END`
pops (a pop of the empty stack is a no-op, as `Array.prototype.pop` on an
empty array is).  A content line is kept when every open block's required
truth equals its flag's value, with the first occurrence of one tab per open
block removed (`line.replace("\t".repeat(stack.length), "")`). -/
def preprocessGo (config : Config) :
    List (List Char) → List CondScope → List (List Char)
  | [], _ => []
  | l :: ls, stack =>
    match classify l with
    | .push f c => preprocessGo config ls (stack ++ [⟨f, c⟩])
    | .pop => preprocessGo config ls stack.dropLast
    | .content =>
      if stack.all (fun s => s.cond = lookupFlag config s.flag) then
        (if stack.length = 0 then l
         else replaceFirstL (List.replicate stack.length '\t') [] l) ::
          preprocessGo config ls stack
      else preprocessGo config ls stack

/-- The conditional preprocessor (`preprocess` in the source): split on
newlines, run the line loop from an empty stack, join with newlines. -/
def preprocess (content : String) (config : Config) : String :=
  String.mk (joinLinesL (preprocessGo config (splitSepL '\n' content.data) []))

/-- The stack transition a single line induces, independent of emission. -/
def stepStack (stack : List CondScope) (l : List Char) : List CondScope :=
  match classify l with
  | .push f c => stack ++ [⟨f, c⟩]
  | .pop => stack.dropLast
  | .content => stack

/-- Pair every line with the stack of blocks open when the line is read. -/
def linesWithStacks :
    List (List Char) → List CondScope → List (List Char × List CondScope)
  | [], _ => []
  | l :: ls, st => (l, st) :: linesWithStacks ls (stepStack st l)

/-- Pointwise emission: a marker line is never emitted; a content line is
emitted, stripped of one tab per open block, exactly when every open
condition holds. -/
def emitLine (config : Config) (p : List Char × List CondScope) :
    Option (List Char) :=
  match classify p.1 with
  | .content =>
    if p.2.all (fun s => s.cond = lookupFlag config s.flag) then
      some (if p.2.length = 0 then p.1
            else replaceFirstL (List.replicate p.2.length '\t') [] p.1)
    else none
  | _ => none

/-- The line loop is the pointwise emission over lines paired with their
open-block stacks: emission depends only on the line and the stack open at
that line. -/
theorem preprocessGo_eq_filterMap (config : Config) :
    ∀ (ls : List (List Char)) (st : List CondScope),
      preprocessGo config ls st =
        (linesWithStacks ls st).filterMap (emitLine config) := by
  intro ls
  induction ls with
  | nil => intro st; rfl
  | cons l ls ih =>
    intro st
    cases h : classify l with
    | push f c =>
      simp [preprocessGo, linesWithStacks, stepStack, emitLine, h, ih]
    | pop =>
      simp [preprocessGo, linesWithStacks, stepStack, emitLine, h, ih]
    | content =>
      by_cases hc : st.all (fun s => s.cond = lookupFlag config s.flag)
      · simp [preprocessGo, linesWithStacks, stepStack, emitLine, h, hc, ih]
      · simp [preprocessGo, linesWithStacks, stepStack, emitLine, h, hc, ih]

/-- Splitting at a separator distributes over an occurrence of the separator
when the part before it is separator-free. -/
theorem splitSepL_append_cons (sep : Char) (a b : List Char) (h : sep ∉ a) :
    splitSepL sep (a ++ sep :: b) = a :: splitSepL sep b := by
  induction a with
  | nil => simp [splitSepL]
  | cons c cs ih =>
    rw [List.mem_cons] at h
    push_neg at h
    have hne : ¬ (c = sep) := fun hc => h.1 hc.symm
    simp only [List.cons_append, splitSepL, hne, if_false, List.append_eq]
    rw [ih h.2]

/-- C2: with flags `{debug: true, test: false}` the replacement text
`"// @IF debug\nA\n// @UNLESS test\nB\n// @END\n// @END"` preprocesses to
`"A\nB"`; with `{debug: true, test: true}` it preprocesses to `"A"`; and in
general the preprocessor emits exactly the content lines whose whole stack
of open conditions holds (each emitted line stripped of one tab of
indentation per open nesting level), never emitting marker lines: the output
is the pointwise emission `emitLine` mapped over the lines paired with their
open-block stacks. -/
theorem preprocess_conditional_spec :
    preprocess "// @IF debug\nA\n// @UNLESS test\nB\n// @END\n// @END"
        ⟨true, false⟩ = "A\nB" ∧
    preprocess "// @IF debug\nA\n// @UNLESS test\nB\n// @END\n// @END"
        ⟨true, true⟩ = "A" ∧
    ∀ (content : String) (config : Config),
      preprocess content config =
        String.mk (joinLinesL
          ((linesWithStacks (splitSepL '\n' content.data) []).filterMap
            (emitLine config))) :=
  ⟨by decide, by decide, fun content config => by
    unfold preprocess
    rw [preprocessGo_eq_filterMap]⟩

/-- C7 counterexample: on input `"// @END\nA"`, whose closing marker has no
open block, the preprocessor does not fail: it returns `"A"` normally.  The
source contains no error path at all (`stack.pop()` on an empty JavaScript
array is a silent no-op, and no `UnbalancedConditionalError` exists anywhere
in the script), so the claimed failure cannot occur. -/
theorem preprocess_unmatched_end_counterexample :
    preprocess "// @END\nA" ⟨true, false⟩ = "A" := by decide

/-- C7 amended: a closing marker line encountered while no conditional block
is open is silently ignored — preprocessing `"// @END\n" ++ rest` returns
normally and equals preprocessing `rest` — rather than failing with an
unbalanced-conditional error. -/
theorem preprocess_unmatched_end_ignored (rest : String) (config : Config) :
    preprocess ("// @END\n" ++ rest) config = preprocess rest config := by
  unfold preprocess
  have hdata : ("// @END\n" ++ rest).data =
      ("// @END").data ++ '\n' :: rest.data := by
    simp [String.data_append]
  rw [hdata, splitSepL_append_cons '\n' ("// @END").data rest.data (by decide)]
  have hclass : classify ("// @END").data = .pop := by decide
  simp [preprocessGo, hclass]

/-- Indentation normalization (`spacesToTabs(content, spaces = "  ")` in the
source): within the leading-whitespace run of each line, every occurrence of
the string `spaces` is replaced by one tab.  The source expresses this with
`content.replace(/^\s+/gm, (match) => match.replaceAll(spaces, "\t"))`; with
the `m` flag a match is a maximal whitespace run starting at some line
start, which may extend across newlines, but since `spaces` contains no
newline, `replaceAll` acts independently on each between-newline segment of
such a run, and every such segment is exactly the leading-whitespace run of
one line — so the transformation is line-by-line. -/
def spacesToTabs (content : String) (spaces : String) : String :=
  String.mk (joinLinesL ((splitSepL '\n' content.data).map (fun line =>
    replaceAllL spaces.data ['\t'] (line.takeWhile isWs) ++
      line.dropWhile isWs)))

/-- The normalized search key of a rule: `const fmt = spacesToTabs(find)`
with the default two-space indent unit. -/
def fmtFind (t : Transform) : String := spacesToTabs t.find "  "

/-- The concrete replacement of a rule:
`preprocess(spacesToTabs(replace), config)`. -/
def fmtReplace (t : Transform) (config : Config) : String :=
  preprocess (spacesToTabs t.replace "  ") config

/-- Lookup in the `map` object built by `transform`: for each rule, the
source assigns `map[fmt] = preprocess(...)`, so when two rules share a
normalized find key the later assignment overwrites the earlier one — the
lookup returns the replacement of the LAST rule whose normalized find equals
the key.  (Modelled as an association lookup; exotic JavaScript property
names such as `__proto__` are outside the model.) -/
def mapLookup (transformations : List Transform) (config : Config)
    (key : List Char) : Option (List Char) :=
  (transformations.reverse.find? (fun t => (fmtFind t).data = key)).map
    (fun t => (fmtReplace t config).data)

/-- The first pattern of the alternation that matches at the current
position: JavaScript regular-expression alternation is ordered, so at each
position the alternatives are tried left to right in rule-declaration
order.  Patterns are escaped literals, so "matches here" is "is a prefix of
the remaining input".  (A match of the empty pattern is not modelled; the
theorems below never depend on an empty find text.) -/
def firstPat (pats : List (List Char)) (s : List Char) : Option (List Char) :=
  pats.find? (fun p => !p.isEmpty && p.isPrefixOf s)

/-- The global scan of `content.replaceAll(regexp, cb)`: at each position,
if some alternative matches, emit the callback's value for the matched text
and resume after the match; otherwise copy one character.  Structurally
recursive on an explicit bound, which never runs out when it starts at the
length of the subject (every step consumes at least one character). -/
def scanReplaceGo (pats : List (List Char)) (rep : List Char → List Char) :
    Nat → List Char → List Char
  | _, [] => []
  | 0, s => s
  | fuel + 1, c :: rest =>
    match firstPat pats (c :: rest) with
    | some p => rep p ++ scanReplaceGo pats rep fuel ((c :: rest).drop p.length)
    | none => c :: scanReplaceGo pats rep fuel rest

/-- The rule applier (`transform` in the source): normalize every find into
the search key, build the replacement map (preprocessing each replacement
under the current flags), join all escaped keys into one ordered
alternation, and scan the content once, replacing each match by
`map[substring] ?? substring`. -/
def transform (content : String) (transformations : List Transform)
    (config : Config) : String :=
  String.mk (scanReplaceGo (transformations.map (fun t => (fmtFind t).data))
    (fun m => (mapLookup transformations config m).getD m)
    content.data.length content.data)

/-- The transformation sequence `xelm` hands to `elm`: the README-extracted
sequence, then — when the caller supplied a `transformations` option — each
caller-supplied rule pushed at the end, in the caller's order. -/
def xelmTransformations (extracted : List Transform)
    (callerOption : Option (List Transform)) : List Transform :=
  match callerOption with
  | none => extracted
  | some ts => extracted ++ ts

/-- If no pattern of the alternation is an infix of the whole subject, the
scan copies every suffix of the subject unchanged. -/
theorem scanReplaceGo_no_match (pats : List (List Char))
    (rep : List Char → List Char) (s0 : List Char)
    (h : ∀ p ∈ pats, ¬ p <:+: s0) :
    ∀ (rem : List Char) (fuel : Nat), rem <:+ s0 →
      scanReplaceGo pats rep fuel rem = rem := by
  intro rem
  induction rem with
  | nil => intro fuel _; cases fuel <;> rfl
  | cons c rest ih =>
    intro fuel hsuf
    cases fuel with
    | zero => rfl
    | succ fuel =>
      have hfp : firstPat pats (c :: rest) = none := by
        rw [firstPat, List.find?_eq_none]
        intro p hp
        intro hmatch
        rw [Bool.and_eq_true] at hmatch
        have hpre := hmatch.2
        rw [List.isPrefixOf_iff_prefix] at hpre
        exact absurd (hpre.isInfix.trans hsuf.isInfix) (h p hp)
      simp only [scanReplaceGo, hfp]
      exact congrArg (c :: ·) (ih fuel ((List.suffix_cons c rest).trans hsuf))

/-- A rule set none of whose normalized find keys occurs in the source text
leaves the source text unchanged. -/
theorem transform_unmatched_id (content : String)
    (transformations : List Transform) (config : Config)
    (h : ∀ t ∈ transformations, ¬ (fmtFind t).data <:+: content.data) :
    transform content transformations config = content := by
  have hpats : ∀ p ∈ transformations.map (fun t => (fmtFind t).data),
      ¬ p <:+: content.data := by
    intro p hp
    rw [List.mem_map] at hp
    obtain ⟨t, ht, rfl⟩ := hp
    exact h t ht
  unfold transform
  rw [scanReplaceGo_no_match _ _ content.data hpats content.data
    content.data.length List.suffix_rfl]

/-- C3 counterexample: the rule `{find: "  A", replace: "Y"}` has a find
text (two spaces then `A`) that does not occur in the source text `"\tA"`,
yet applying it changes the source to `"Y"` — because matching is performed
against the indentation-NORMALIZED find (`spacesToTabs` turns the two-space
run into a tab, which does occur).  So "applying any rule set none of whose
find texts occurs in the source returns the source text unchanged" is false
for the raw find text. -/
theorem transform_raw_find_counterexample :
    ¬ (("  A").data <:+: ("\tA").data) ∧
    transform "\tA" [⟨"  A", "Y"⟩] ⟨false, false⟩ = "Y" ∧
    ("Y" : String) ≠ "\tA" := by
  refine ⟨by decide, by decide, by decide⟩

/-- C3 amended: applying a rule set containing `{find: "X", replace: "Y"}`
to `"aXbXc"` yields `"aYbYc"` (every occurrence replaced), and applying any
rule set none of whose INDENTATION-NORMALIZED find texts (two-space leading
runs converted to tabs) occurs in the source returns the source unchanged;
each find is matched as a literal (the model represents the individually
escaped alternation by literal prefix matching, which is exactly what the
escaping guarantees). -/
theorem transform_literal_substitution :
    (∀ config : Config, transform "aXbXc" [⟨"X", "Y"⟩] config = "aYbYc") ∧
    (∀ (content : String) (transformations : List Transform)
        (config : Config),
      (∀ t ∈ transformations, ¬ (fmtFind t).data <:+: content.data) →
      transform content transformations config = content) :=
  ⟨fun _ => rfl,
   fun content transformations config h =>
     transform_unmatched_id content transformations config h⟩

/-- Witness for the hypothesis-bearing part of the C3 theorem at a concrete
input: the find `"Q"` does not occur in `"abc"`, and the source text comes
back unchanged. -/
theorem transform_literal_substitution_witness :
    transform "abc" [⟨"Q", "R"⟩] ⟨false, false⟩ = "abc" :=
  transform_literal_substitution.2 "abc" [⟨"Q", "R"⟩] ⟨false, false⟩
    (by decide)

/-- C10 counterexample: README-extracted rule `{find: "X", replace: "R1"}`
and caller-supplied rule `{find: "X", replace: "R2"}` have identical
(overlapping) find texts, and the caller-supplied replacement wins: the
later `map[fmt] = ...` assignment overwrites the earlier one, so the claimed
README precedence fails for identical find texts. -/
theorem xelm_precedence_counterexample :
    transform "Xz" (xelmTransformations [⟨"X", "R1"⟩] (some [⟨"X", "R2"⟩]))
      ⟨false, false⟩ = "R2z" ∧
    transform "Xz" (xelmTransformations [⟨"X", "R1"⟩] (some [⟨"X", "R2"⟩]))
      ⟨false, false⟩ ≠ "R1z" := by
  refine ⟨by decide, by decide⟩

/-- C10 amended: `xelm` hands `elm` the README-extracted sequence followed
by the caller-supplied rules in their given order (caller rules are pushed
at the end; with no caller option the extracted sequence is passed as is).
When find texts overlap but differ, the README-extracted rule takes
precedence through left-to-right alternation order (here `"XY"` beats the
caller's `"X"` on `"XYz"`); when the normalized find texts are identical,
the caller-supplied rule's replacement wins, because its later assignment
into the replacement map overwrites the README rule's. -/
theorem xelm_transformations_order :
    (∀ (extracted ts : List Transform),
      xelmTransformations extracted (some ts) = extracted ++ ts) ∧
    (∀ extracted : List Transform,
      xelmTransformations extracted none = extracted) ∧
    (∀ config : Config,
      transform "XYz" (xelmTransformations [⟨"XY", "A"⟩] (some [⟨"X", "B"⟩]))
        config = "Az") ∧
    (∀ config : Config,
      transform "Xz" (xelmTransformations [⟨"X", "R1"⟩] (some [⟨"X", "R2"⟩]))
        config = "R2z") :=
  ⟨fun _ _ => rfl, fun _ => rfl, fun _ => rfl, fun _ => rfl⟩

/-- Inline element of a markdown paragraph, as far as the scanner looks at
it: a link (with its `href`) or anything else. -/
inductive Inline where
  | link (href : String)
  | otherInline
deriving DecidableEq, Repr

/-- Block-level token of the markdown tokenizer (`marked.lexer`), restricted
to the structure the scanner inspects: headings with their depth, paragraphs
with their inline elements, fenced code blocks with their (optional)
language tag and text, and anything else. -/
inductive Token where
  | heading (depth : Nat)
  | paragraph (tokens : List Inline)
  | code (lang : Option String) (text : String)
  | otherToken
deriving DecidableEq, Repr

/-- The fixed anchor fragment that starts a transformation section. -/
def anchorHref : String := "#98f5c378-5809-4e35-904e-d1c5c3a8154e"

/-- Whether some inline element of a paragraph is a link to the anchor
(the source breaks at the first such link; `List.any` is equivalent). -/
def hasAnchorLink (items : List Inline) : Bool :=
  items.any (fun it =>
    match it with
    | .link h => h = anchorHref
    | .otherInline => false)

/-- Whether a token is a paragraph containing the anchor link. -/
def isAnchorPara (t : Token) : Bool :=
  match t with
  | .paragraph items => hasAnchorLink items
  | _ => false

/-- Whether a token is a heading of depth 1–3
(`token.type === "heading" && token.depth < 4`). -/
def isHeadingLt4 (t : Token) : Bool :=
  match t with
  | .heading d => d < 4
  | _ => false

/-- Apply the optional namespace matcher to a code block's text
(`regExp ? token.text.replaceAll(regExp, "$author$project$") : token.text`;
the matcher function is the already-assembled rewrite). -/
def applyRw (rw : Option (String → String)) (text : String) : String :=
  match rw with
  | some f => f text
  | none => text

/-- The error raised for an unpaired find at the end of the scan. -/
def unmatchedFindMsg (f : String) : String :=
  "Unmatched find-and-replace transformation pattern:\n\n" ++ f

/-- The error raised for a collected code block whose language tag is not
`js` (`undefined` is how JavaScript renders an absent tag). -/
def badLangMsg (lang : Option String) : String :=
  "Unexpected '" ++ lang.getD "undefined" ++ "' code block"

/-- The check after the token loop: a pending find is a fatal error. -/
def finishScan (pending : Option String) : Except String (List Transform) :=
  match pending with
  | none => .ok []
  | some f => .error (unmatchedFindMsg f)

/-- The token loop of `extractReadme`, with the `collect` flag and the
pending `find`.  While collecting, a heading of depth 1–3 ends the scan; a
paragraph with the anchor link starts collecting; a collected code block
must be tagged `js`, its (namespace-rewritten, indentation-normalized with a
four-space indent unit) text becoming the pending find or, when a find is
pending, the replace of a newly emitted Transform. -/
def extractReadmeTokens (rw : Option (String → String)) :
    List Token → Bool → Option String → Except String (List Transform)
  | [], _, pending => finishScan pending
  | t :: ts, collect, pending =>
    if collect && isHeadingLt4 t then finishScan pending
    else
      let collect2 := collect || isAnchorPara t
      match t with
      | .code lang text =>
        if collect2 then
          if lang ≠ some "js" then .error (badLangMsg lang)
          else
            match pending with
            | some f =>
              (extractReadmeTokens rw ts collect2 none).map
                (fun rest =>
                  ⟨f, spacesToTabs (applyRw rw text) "    "⟩ :: rest)
            | none =>
              extractReadmeTokens rw ts collect2
                (some (spacesToTabs (applyRw rw text) "    "))
        else extractReadmeTokens rw ts collect2 pending
      | _ => extractReadmeTokens rw ts collect2 pending

/-- The code blocks the scan collects: those in the region after the first
anchor paragraph and strictly before the next heading of depth 1–3, with
their language tags, ignoring failure. -/
def collectedBlocks : List Token → Bool → List (Option String × String)
  | [], _ => []
  | t :: ts, collect =>
    if collect && isHeadingLt4 t then []
    else
      let collect2 := collect || isAnchorPara t
      match t with
      | .code lang text =>
        if collect2 then (lang, text) :: collectedBlocks ts collect2
        else collectedBlocks ts collect2
      | _ => collectedBlocks ts collect2

/-- Pair a list of texts two by two into Transforms (find first, replace
second), dropping nothing when the list has even length. -/
def pairUp : List String → List Transform
  | f :: r :: rest => ⟨f, r⟩ :: pairUp rest
  | _ => []

/-- Whether an extraction result is the fatal error case. -/
def exceptIsError (e : Except String (List Transform)) : Bool :=
  match e with
  | .error _ => true
  | .ok _ => false

/-- Mapping a function over an extraction result does not change whether it
is an error. -/
theorem exceptIsError_map (e : Except String (List Transform))
    (g : List Transform → List Transform) :
    exceptIsError (e.map g) = exceptIsError e := by
  cases e <;> rfl

/-- Contribution of the pending find to the parity of collected blocks. -/
def pendCount : Option String → Nat
  | some _ => 1
  | none => 0

/-- Invariant of the token loop: from any reachable state (a pending find
exists only while collecting), the scan errors exactly when some still-to-be
collected block has a non-`js` tag or the count of blocks, plus the pending
find, is odd. -/
theorem extract_error_aux (rw : Option (String → String)) :
    ∀ (ts : List Token) (collect : Bool) (pending : Option String),
      (collect = false → pending = none) →
      (exceptIsError (extractReadmeTokens rw ts collect pending) = true ↔
        (∃ b ∈ collectedBlocks ts collect, b.1 ≠ some "js") ∨
          ((collectedBlocks ts collect).length + pendCount pending) % 2 = 1) := by
  intro ts
  induction ts with
  | nil =>
    intro collect pending _
    cases pending with
    | none =>
      simp [extractReadmeTokens, finishScan, collectedBlocks, exceptIsError, pendCount]
    | some f =>
      simp [extractReadmeTokens, finishScan, collectedBlocks, exceptIsError, pendCount]
  | cons t ts ih =>
    intro collect pending hinv
    cases t with
    | code lang text =>
      simp only [extractReadmeTokens, collectedBlocks, isHeadingLt4, isAnchorPara,
        Bool.and_false, Bool.or_false, Bool.false_eq_true, if_false]
      cases collect with
      | false =>
        have hp := hinv rfl
        subst hp
        simpa using ih false none hinv
      | true =>
        simp only [if_true]
        by_cases hl : lang = some "js"
        · subst hl
          simp only [ne_eq, not_true_eq_false, if_false, reduceIte]
          cases pending with
          | some f =>
            rw [exceptIsError_map, ih true none (fun h => nomatch h)]
            simp only [List.mem_cons, List.length_cons, pendCount]
            constructor
            · rintro (⟨b, hb, hbb⟩ | hpar)
              · exact Or.inl ⟨b, Or.inr hb, hbb⟩
              · right; omega
            · rintro (⟨b, hb1 | hb2, hbb⟩ | hpar)
              · subst hb1; simp at hbb
              · exact Or.inl ⟨b, hb2, hbb⟩
              · right; omega
          | none =>
            rw [ih true (some _) (fun h => nomatch h)]
            simp only [List.mem_cons, List.length_cons, pendCount]
            constructor
            · rintro (⟨b, hb, hbb⟩ | hpar)
              · exact Or.inl ⟨b, Or.inr hb, hbb⟩
              · right; omega
            · rintro (⟨b, hb1 | hb2, hbb⟩ | hpar)
              · subst hb1; simp at hbb
              · exact Or.inl ⟨b, hb2, hbb⟩
              · right; omega
        · simp only [ne_eq, hl, not_false_eq_true, if_true, exceptIsError]
          constructor
          · intro _
            exact Or.inl ⟨(lang, text), List.mem_cons_self _ _, by simpa using hl⟩
          · intro _
            trivial
    | heading d =>
      simp only [extractReadmeTokens, collectedBlocks, isHeadingLt4, isAnchorPara,
        Bool.or_false]
      cases collect with
      | false =>
        have hp := hinv rfl
        subst hp
        simpa using ih false none hinv
      | true =>
        by_cases hd : d < 4
        · rw [decide_eq_true hd]
          simp only [Bool.and_self, if_true, reduceIte]
          cases pending with
          | none => simp [finishScan, exceptIsError, pendCount]
          | some f => simp [finishScan, exceptIsError, pendCount]
        · rw [decide_eq_false hd]
          simp only [Bool.and_false, Bool.false_eq_true, if_false]
          exact ih true pending (fun h => nomatch h)
    | paragraph items =>
      simp only [extractReadmeTokens, collectedBlocks, isHeadingLt4, isAnchorPara,
        Bool.and_false, Bool.false_eq_true, if_false]
      cases collect with
      | false =>
        have hp := hinv rfl
        subst hp
        simp only [Bool.false_or]
        exact ih (hasAnchorLink items) none (fun _ => rfl)
      | true =>
        simp only [Bool.true_or]
        exact ih true pending (fun h => nomatch h)
    | otherToken =>
      simp only [extractReadmeTokens, collectedBlocks, isHeadingLt4, isAnchorPara,
        Bool.and_false, Bool.or_false, Bool.false_eq_true, if_false]
      exact ih collect pending hinv

/-- C6: scanning a token stream fails with the fatal extraction error if and
only if some collected code block (one lying after the anchor paragraph and
before the next heading of depth 1–3) has a language tag other than `js`, or
an odd number of code blocks was collected (the scan ends — at the stream's
end or at the stopping heading — while a find is still pending); in every
other case scanning returns normally. -/
theorem extract_fails_iff (rw : Option (String → String)) (tokens : List Token) :
    exceptIsError (extractReadmeTokens rw tokens false none) = true ↔
      (∃ b ∈ collectedBlocks tokens false, b.1 ≠ some "js") ∨
        Odd (collectedBlocks tokens false).length := by
  rw [extract_error_aux rw tokens false none (fun _ => rfl)]
  simp [pendCount, Nat.odd_iff]

/-- Tokens before the anchor paragraph are skipped without any effect. -/
theorem extract_skip_non_anchor (rw : Option (String → String)) :
    ∀ (pre rest : List Token), (∀ t ∈ pre, isAnchorPara t = false) →
      extractReadmeTokens rw (pre ++ rest) false none =
        extractReadmeTokens rw rest false none := by
  intro pre
  induction pre with
  | nil => intro rest _; rfl
  | cons t pre ih =>
    intro rest h
    have ht := h t (List.mem_cons_self _ _)
    have hrest := fun u hu => h u (List.mem_cons_of_mem _ hu)
    cases t with
    | code lang text =>
      simp only [List.cons_append, extractReadmeTokens, isHeadingLt4, isAnchorPara,
        Bool.false_and, Bool.false_or, Bool.false_eq_true, if_false]
      exact ih rest hrest
    | heading d =>
      simp only [List.cons_append, extractReadmeTokens, isHeadingLt4, isAnchorPara,
        Bool.false_and, Bool.false_or, Bool.false_eq_true, if_false]
      exact ih rest hrest
    | paragraph items =>
      have hpa : hasAnchorLink items = false := by simpa [isAnchorPara] using ht
      simp only [List.cons_append, extractReadmeTokens, isHeadingLt4, isAnchorPara,
        Bool.false_and, Bool.false_or, Bool.false_eq_true, if_false, hpa]
      exact ih rest hrest
    | otherToken =>
      simp only [List.cons_append, extractReadmeTokens, isHeadingLt4, isAnchorPara,
        Bool.false_and, Bool.false_or, Bool.false_eq_true, if_false]
      exact ih rest hrest

/-- A paragraph containing the anchor link switches the scan into the
collecting state. -/
theorem extract_anchor_starts (rw : Option (String → String))
    (items : List Inline) (rest : List Token)
    (h : hasAnchorLink items = true) :
    extractReadmeTokens rw (Token.paragraph items :: rest) false none =
      extractReadmeTokens rw rest true none := by
  simp [extractReadmeTokens, isHeadingLt4, isAnchorPara, h]

/-- Composing maps over an extraction result. -/
theorem except_map_map (e : Except String (List Transform))
    (g h : List Transform → List Transform) :
    (e.map g).map h = e.map (fun x => h (g x)) := by
  cases e <;> rfl

/-- While collecting with no pending find, a heading of depth 1–3 ends the
scan successfully with no further Transforms. -/
theorem extract_heading_stops (rw : Option (String → String)) (d : Nat)
    (post : List Token) (hd : d < 4) :
    extractReadmeTokens rw (Token.heading d :: post) true none = .ok [] := by
  simp only [extractReadmeTokens, isHeadingLt4, decide_eq_true hd,
    Bool.and_self, if_true, finishScan]

/-- Whether a token is skipped without any effect while the scan is
collecting: paragraphs (the anchor test only runs before collection
starts), headings of depth 4 and deeper, and every other non-code token. -/
def isNeutral (t : Token) : Bool :=
  match t with
  | .code _ _ => false
  | .heading d => decide (4 ≤ d)
  | _ => true

/-- Whether a token is a fenced code block tagged `js`. -/
def isJsCode (t : Token) : Bool :=
  match t with
  | .code (some l) _ => l = "js"
  | _ => false

/-- The texts of the code blocks of a token list, in order. -/
def codeTexts : List Token → List String
  | [] => []
  | Token.code _ text :: ts => text :: codeTexts ts
  | _ :: ts => codeTexts ts

/-- Pairing of texts seen from a scan state: with no pending find the texts
pair up two by two; with a pending find the first text completes its pair
and the rest pair up two by two. -/
def pairPending : Option String → List String → List Transform
  | none, texts => pairUp texts
  | some f, texts =>
    match texts with
    | r :: rest => ⟨f, r⟩ :: pairUp rest
    | [] => []

/-- Plain pairing is pairing from the state whose pending find is the first
text. -/
theorem pairUp_cons (a : String) (xs : List String) :
    pairUp (a :: xs) = pairPending (some a) xs := by
  cases xs <;> rfl

/-- While collecting, a region whose tokens are all either neutral (skipped)
or `js` code blocks, with an even total of code blocks counting the pending
find, contributes exactly the paired (rewritten, normalized) code texts in
order, in front of whatever the rest of the scan produces. -/
theorem extract_region_aux (rw : Option (String → String)) :
    ∀ (mid tail : List Token) (pending : Option String),
      (∀ t ∈ mid, isNeutral t = true ∨ isJsCode t = true) →
      ((codeTexts mid).length + pendCount pending) % 2 = 0 →
      extractReadmeTokens rw (mid ++ tail) true pending =
        (extractReadmeTokens rw tail true none).map
          (fun rest =>
            pairPending pending ((codeTexts mid).map (fun txt =>
              spacesToTabs (applyRw rw txt) "    ")) ++ rest) := by
  intro mid
  induction mid with
  | nil =>
    intro tail pending hmem hpar
    cases pending with
    | none =>
      simp only [List.nil_append, codeTexts, List.map_nil, pairPending, pairUp]
      cases extractReadmeTokens rw tail true none <;> rfl
    | some f => simp [pendCount, codeTexts] at hpar
  | cons t mid ih =>
    intro tail pending hmem hpar
    have hmem2 := fun u hu => hmem u (List.mem_cons_of_mem _ hu)
    have ht := hmem t (List.mem_cons_self _ _)
    cases t with
    | heading d =>
      have hd4 : ¬ d < 4 := by
        rcases ht with hneu | hjs
        · have := of_decide_eq_true (by simpa [isNeutral] using hneu)
          omega
        · simp [isJsCode] at hjs
      simp only [List.cons_append, extractReadmeTokens, isHeadingLt4, isAnchorPara,
        decide_eq_false hd4, Bool.and_false, Bool.false_eq_true, if_false,
        Bool.or_false, codeTexts]
      exact ih tail pending hmem2 (by simpa [codeTexts] using hpar)
    | paragraph items =>
      simp only [List.cons_append, extractReadmeTokens, isHeadingLt4, isAnchorPara,
        Bool.and_false, Bool.false_eq_true, if_false, Bool.true_or, codeTexts]
      exact ih tail pending hmem2 (by simpa [codeTexts] using hpar)
    | otherToken =>
      simp only [List.cons_append, extractReadmeTokens, isHeadingLt4, isAnchorPara,
        Bool.and_false, Bool.false_eq_true, if_false, Bool.or_false, codeTexts]
      exact ih tail pending hmem2 (by simpa [codeTexts] using hpar)
    | code lang text =>
      have hlang : lang = some "js" := by
        rcases ht with hneu | hjs
        · simp [isNeutral] at hneu
        · cases lang with
          | none => simp [isJsCode] at hjs
          | some l =>
            have hl : l = "js" := by simpa [isJsCode] using hjs
            rw [hl]
      subst hlang
      cases pending with
      | none =>
        rw [show extractReadmeTokens rw
            ((Token.code (some "js") text :: mid) ++ tail) true none =
          extractReadmeTokens rw (mid ++ tail) true
            (some (spacesToTabs (applyRw rw text) "    ")) from rfl]
        rw [ih tail (some (spacesToTabs (applyRw rw text) "    ")) hmem2
          (by simp only [codeTexts, List.length_cons, pendCount] at hpar ⊢; omega)]
        congr 1
        funext rest
        simp only [codeTexts, List.map_cons, pairPending, pairUp_cons]
      | some f =>
        rw [show extractReadmeTokens rw
            ((Token.code (some "js") text :: mid) ++ tail) true (some f) =
          (extractReadmeTokens rw (mid ++ tail) true none).map
            (fun rest =>
              ⟨f, spacesToTabs (applyRw rw text) "    "⟩ :: rest) from rfl]
        rw [ih tail none hmem2
          (by simp only [codeTexts, List.length_cons, pendCount] at hpar ⊢; omega)]
        rw [except_map_map]
        rfl

/-- C1 amended: for a documentation token stream consisting of anchor-free
content, then a paragraph with the anchor link, then a region holding an
even number `2n` of `js` code blocks — possibly interleaved with
paragraphs, headings of depth 4 and deeper, and other non-code tokens,
which the scan skips — then a heading of depth 1–3 (and anything after it),
extraction returns exactly `n` Transforms, the `2i`-th block's
indentation-NORMALIZED text (leading four-space runs converted to tabs by
`spacesToTabs(text, "    ")`) becoming the find and the `(2i+1)`-th block's
normalized text the replace, in discovery order. -/
theorem extractReadme_pairing (pre : List Token) (items : List Inline)
    (mid : List Token) (d : Nat) (post : List Token) (n : Nat)
    (hpre : ∀ t ∈ pre, isAnchorPara t = false)
    (hanchor : hasAnchorLink items = true)
    (hmid : ∀ t ∈ mid, isNeutral t = true ∨ isJsCode t = true)
    (hd : d < 4)
    (hlen : (codeTexts mid).length = 2 * n) :
    extractReadmeTokens none
        (pre ++ Token.paragraph items ::
          (mid ++ Token.heading d :: post)) false none =
      .ok (pairUp ((codeTexts mid).map (fun txt =>
        spacesToTabs txt "    "))) := by
  rw [extract_skip_non_anchor none pre _ hpre,
      extract_anchor_starts none items _ hanchor,
      extract_region_aux none mid (Token.heading d :: post) none hmid
        (by simp only [pendCount]; omega),
      extract_heading_stops none d post hd]
  simp [applyRw, Except.map, pairPending]

/-- Result equality for extraction results is decidable, so concrete scans
can be checked by evaluation. -/
instance exceptDecEq {e a : Type} [DecidableEq e] [DecidableEq a] :
    DecidableEq (Except e a) := fun x y =>
  match x, y with
  | .ok u, .ok v =>
    if h : u = v then .isTrue (by rw [h])
    else .isFalse (fun hc => h (by injection hc))
  | .error u, .error v =>
    if h : u = v then .isTrue (by rw [h])
    else .isFalse (fun hc => h (by injection hc))
  | .ok _, .error _ => .isFalse (fun hc => Except.noConfusion hc)
  | .error _, .ok _ => .isFalse (fun hc => Except.noConfusion hc)

/-- C1 counterexample: a `js` code block whose text is `"    x"` (four
spaces then `x`) followed by one with text `"y"` after the anchor yields the
Transform `{find: "\tx", replace: "y"}` — the find field is the
indentation-normalized text, NOT the code block's text `"    x"`. -/
theorem extract_raw_text_counterexample :
    extractReadmeTokens none
      [Token.paragraph [Inline.link anchorHref],
       Token.code (some "js") "    x", Token.code (some "js") "y"]
      false none = .ok [⟨"\tx", "y"⟩] ∧
    extractReadmeTokens none
      [Token.paragraph [Inline.link anchorHref],
       Token.code (some "js") "    x", Token.code (some "js") "y"]
      false none ≠ .ok [⟨"    x", "y"⟩] :=
  ⟨by decide, by decide⟩

/-- Witness for the C1 theorem at a concrete token stream: a heading before
the anchor, the anchor paragraph, two `js` blocks `"a"`/`"b"` with a
depth-4 heading and a plain paragraph interleaved between them (both
skipped), a stopping heading and a non-`js` block after it; extraction
yields the single pair. -/
theorem extractReadme_pairing_witness :
    extractReadmeTokens none
      [Token.heading 1, Token.paragraph [Inline.link anchorHref],
       Token.code (some "js") "a", Token.heading 4,
       Token.paragraph [Inline.otherInline], Token.code (some "js") "b",
       Token.heading 2, Token.code (some "py") "z"] false none =
      .ok [⟨"a", "b"⟩] := by
  have h := extractReadme_pairing [Token.heading 1] [Inline.link anchorHref]
    [Token.code (some "js") "a", Token.heading 4,
     Token.paragraph [Inline.otherInline], Token.code (some "js") "b"]
    2 [Token.code (some "py") "z"] 1
    (by decide) (by decide) (by decide) (by decide) (by decide)
  exact h

/-- `escapeVar` from the source: map every hyphen to an underscore (a global
regex replace of the hyphen; the incomplete-escaping TODO of the source is
preserved as-is). -/
def escapeVar (name : String) : String :=
  String.mk (replaceAllL ['-'] ['_'] name.data)

/-- `getNamespace` from the source: split the hyphen-escaped identifier at
`/` into author and project (JavaScript destructuring takes the first two
segments), fail when the project part is missing, and build the global
matcher for the compiled-symbol prefix.  The returned regular expression's
pattern is the individually escaped literal
`\$<author>\$<project>\$`, represented here by the literal text it matches:
`$<author>$<project>$` (each part hyphen-escaped a second time,
idempotently). -/
def getNamespace (name : String) : Except String String :=
  match splitSepL '/' (escapeVar name).data with
  | author :: project :: _ =>
    .ok ("$" ++ escapeVar (String.mk author) ++ "$" ++
      escapeVar (String.mk project) ++ "$")
  | _ => .error "Could not extract project name from 'elm.json'"

/-- Application of the namespace matcher to a text:
`text.replaceAll(regExp, "$author$project$")` (the replacement string has no
special `$`-sequences recognized by JavaScript, so it is inserted
literally). -/
def applyNamespace (pattern : String) (text : String) : String :=
  String.mk (replaceAllL pattern.data ("$author$project$").data text.data)

/-- If the pattern is not an infix of the whole subject, replacement copies
every suffix of the subject unchanged. -/
theorem replaceAllGo_no_match (pat repl s0 : List Char) (h : ¬ pat <:+: s0) :
    ∀ (rem : List Char) (fuel : Nat), rem <:+ s0 →
      replaceAllGo pat repl fuel rem = rem := by
  intro rem
  induction rem with
  | nil => intro fuel _; cases fuel <;> rfl
  | cons c rest ih =>
    intro fuel hsuf
    cases fuel with
    | zero => rfl
    | succ fuel =>
      have hmatch : (!pat.isEmpty && pat.isPrefixOf (c :: rest)) = false := by
        by_contra hne
        rw [Bool.not_eq_false, Bool.and_eq_true] at hne
        have hpre := hne.2
        rw [List.isPrefixOf_iff_prefix] at hpre
        exact h (hpre.isInfix.trans hsuf.isInfix)
      simp only [replaceAllGo, hmatch, Bool.false_eq_true, if_false]
      exact congrArg (c :: ·) (ih fuel ((List.suffix_cons c rest).trans hsuf))

/-- C8: the matcher built by `getNamespace` for the identifier
`"acme/widgets"` matches the literal compiled-symbol prefix
`$acme$widgets$`; rewriting a text containing `$acme$widgets$foo` (twice)
replaces every occurrence of the prefix, producing `$author$project$foo`;
and rewriting any text containing no occurrence of the `$acme$widgets$`
prefix returns the text unchanged. -/
theorem getNamespace_rewrite :
    getNamespace "acme/widgets" = .ok "$acme$widgets$" ∧
    applyNamespace "$acme$widgets$"
        "let a = $acme$widgets$foo;\nlet b = $acme$widgets$foo;" =
      "let a = $author$project$foo;\nlet b = $author$project$foo;" ∧
    ∀ text : String, ¬ (("$acme$widgets$").data <:+: text.data) →
      applyNamespace "$acme$widgets$" text = text :=
  ⟨by decide, by decide, fun text h => by
    unfold applyNamespace replaceAllL
    rw [replaceAllGo_no_match ("$acme$widgets$").data _ text.data h text.data
      text.data.length List.suffix_rfl]⟩

/-- Witness for the no-occurrence part of the C8 theorem at a concrete
input: `"hello"` contains no `$acme$widgets$` prefix and is returned
unchanged. -/
theorem getNamespace_rewrite_witness :
    applyNamespace "$acme$widgets$" "hello" = "hello" :=
  getNamespace_rewrite.2.2 "hello" (by decide)

/-- Join two path segments with a separator, modelling `path.join` for the
already-normalized segments the script builds paths from. -/
def pathJoin (a b : String) : String := a ++ "/" ++ b

/-- The file system as the documentation scanner sees it: a path either
holds a documentation file — represented by its `marked.lexer` token
stream — or is absent. -/
structure DocFS where
  tokens : String → Option (List Token)

/-- `extractReadme(filePath, namespace?)` from the source: an absent file
contributes zero rules; otherwise the namespace matcher is built (when a
namespace identifier was supplied — failure of `getNamespace` propagates)
and the token scan runs over the file's token stream. -/
def extractReadme (fs : DocFS) (filePath : String)
    (nsname : Option String) : Except String (List Transform) :=
  match fs.tokens filePath with
  | none => .ok []
  | some toks =>
    match nsname with
    | none => extractReadmeTokens none toks false none
    | some nm =>
      match getNamespace nm with
      | .error e => .error e
      | .ok pattern =>
        extractReadmeTokens (some (applyNamespace pattern)) toks false none

/-- The installed-documentation path of a dependency:
`path.join(directory, author, name, version, README_MD)`. -/
def depReadmePath (author name version directory : String) : String :=
  pathJoin (pathJoin (pathJoin (pathJoin directory author) name) version)
    "README.md"

/-- `extractDependency` from the source: split the dependency identifier at
`/` into author and package name (extra segments are ignored), resolve the
installed README path, and scan it — passing NO namespace argument
(`extractReadme(markdownFile)` in the source).  A dependency identifier with
no `/` makes the original crash while joining the path with an undefined
segment; that abort is modelled as the error case. -/
def extractDependency (fs : DocFS) (dependency version directory : String) :
    Except String (List Transform) :=
  match splitSepL '/' dependency.data with
  | author :: name :: _ =>
    extractReadme fs
      (depReadmePath (String.mk author) (String.mk name) version directory)
      none
  | _ => .error "Undefined package name"

/-- Concrete token stream of a dependency README whose rule pair uses the
dependency's own compiled-symbol prefix. -/
def depTokensC5 : List Token :=
  [Token.paragraph [Inline.link anchorHref],
   Token.code (some "js") "$acme$widgets$foo", Token.code (some "js") "bar"]

/-- A file system holding exactly that README at the installed path of
`acme/widgets` version `1.0.0`. -/
def depFsC5 : DocFS :=
  ⟨fun p =>
    if p = "dir/acme/widgets/1.0.0/README.md" then some depTokensC5
    else none⟩

/-- C5 counterexample: scanning the dependency `acme/widgets` leaves the
compiled-symbol prefix `$acme$widgets$` in the extracted Transform verbatim
— no namespace matcher is built or applied for the dependency
(`extractDependency` calls `extractReadme` with no namespace argument), so
the find is NOT rewritten to `$author$project$foo` as the claim states. -/
theorem extractDependency_counterexample :
    extractDependency depFsC5 "acme/widgets" "1.0.0" "dir" =
      .ok [⟨"$acme$widgets$foo", "bar"⟩] ∧
    extractDependency depFsC5 "acme/widgets" "1.0.0" "dir" ≠
      .ok [⟨"$author$project$foo", "bar"⟩] :=
  ⟨by decide, by decide⟩

/-- C5 amended: for every dependency, the walker scans the dependency's
README with NO namespace matcher (`extractDependency` calls `extractReadme`
with no namespace argument): when the installed README's token stream has
anchor-free content, then the anchor paragraph, then a region with an even
number `2n` of `js` code blocks (interleaved neutral tokens skipped) and a
stopping heading, the extracted Transforms carry the code blocks' texts
verbatim up to indentation normalization — in particular the dependency's
own compiled-symbol prefix is left in place, not rewritten to the
`$author$project$` placeholder. -/
theorem extractDependency_no_matcher (fs : DocFS)
    (dependency version directory : String) (author name : List Char)
    (pre : List Token) (items : List Inline) (mid : List Token)
    (d : Nat) (post : List Token) (n : Nat)
    (hsplit : splitSepL '/' dependency.data = [author, name])
    (htoks : fs.tokens
        (depReadmePath (String.mk author) (String.mk name) version directory) =
      some (pre ++ Token.paragraph items ::
        (mid ++ Token.heading d :: post)))
    (hpre : ∀ t ∈ pre, isAnchorPara t = false)
    (hanchor : hasAnchorLink items = true)
    (hmid : ∀ t ∈ mid, isNeutral t = true ∨ isJsCode t = true)
    (hd : d < 4)
    (hlen : (codeTexts mid).length = 2 * n) :
    extractDependency fs dependency version directory =
      .ok (pairUp ((codeTexts mid).map (fun txt =>
        spacesToTabs txt "    "))) := by
  have hstep : extractDependency fs dependency version directory =
      extractReadmeTokens none
        (pre ++ Token.paragraph items ::
          (mid ++ Token.heading d :: post)) false none := by
    unfold extractDependency
    rw [hsplit]
    show extractReadme fs
      (depReadmePath (String.mk author) (String.mk name) version directory)
      none = _
    unfold extractReadme
    rw [htoks]
  rw [hstep,
      extract_skip_non_anchor none pre _ hpre,
      extract_anchor_starts none items _ hanchor,
      extract_region_aux none mid (Token.heading d :: post) none hmid
        (by simp only [pendCount]; omega),
      extract_heading_stops none d post hd]
  simp [applyRw, Except.map, pairPending]

/-- Witness for the C5 theorem at a concrete input: dependency `a/w`,
version `1`, directory `d`; its README opens with a title and a prose
paragraph before the anchor, and a depth-5 heading sits between the two
`js` blocks; the first block's text carries the dependency prefix `$a$w$f`
and extraction returns it unrewritten. -/
theorem extractDependency_no_matcher_witness :
    extractDependency
      ⟨fun p =>
        if p = "d/a/w/1/README.md" then
          some [Token.heading 1, Token.paragraph [Inline.otherInline],
            Token.paragraph [Inline.link anchorHref],
            Token.code (some "js") "$a$w$f", Token.heading 5,
            Token.code (some "js") "g", Token.heading 1]
        else none⟩
      "a/w" "1" "d" = .ok [⟨"$a$w$f", "g"⟩] := by
  have h := extractDependency_no_matcher
    ⟨fun p =>
      if p = "d/a/w/1/README.md" then
        some [Token.heading 1, Token.paragraph [Inline.otherInline],
          Token.paragraph [Inline.link anchorHref],
          Token.code (some "js") "$a$w$f", Token.heading 5,
          Token.code (some "js") "g", Token.heading 1]
      else none⟩
    "a/w" "1" "d" ("a").data ("w").data
    [Token.heading 1, Token.paragraph [Inline.otherInline]]
    [Inline.link anchorHref]
    [Token.code (some "js") "$a$w$f", Token.heading 5,
     Token.code (some "js") "g"]
    1 [] 1
    (by decide) (by decide) (by decide) (by decide) (by decide) (by decide)
    (by decide)
  exact h

/-- A modification time as `getModificationTime` produces it: a finite
millisecond timestamp, or the `Number.POSITIVE_INFINITY` fallback. -/
inductive MTime where
  | fin (t : Nat)
  | inf
deriving DecidableEq, Repr

/-- Strict `>` on modification times, with infinity above every finite
time (and not above itself), as JavaScript number comparison gives. -/
def mtimeGt : MTime → MTime → Bool
  | .inf, .inf => false
  | .inf, .fin _ => true
  | .fin _, .inf => false
  | .fin a, .fin b => b < a

/-- The file system as the cache sees it: `stat` yields `none` for a
missing path, `some none` for a path whose stat has no usable mtime, and
`some (some t)` for a path with modification time `t`; `read` yields the
text content (`Deno.readTextFile`). -/
structure CacheFS where
  stat : String → Option (Option Nat)
  read : String → String

/-- `fs.exists` over the modelled file system. -/
def fsExists (fs : CacheFS) (p : String) : Bool := (fs.stat p).isSome

/-- `getModificationTime(filePath, fallback)` from the source: the stat's
mtime when there is one, the fallback both when the file is missing
(`Deno.errors.NotFound`) and when the stat carries no mtime
(`mtime?.getTime() ?? fallback`). -/
def getModificationTime (fs : CacheFS) (filePath : String)
    (fallback : MTime) : MTime :=
  match fs.stat filePath with
  | some (some t) => .fin t
  | _ => fallback

/-- `isModifiedAfter(src, dest)` from the source: source time with fallback
`+infinity`, destination time with fallback `0`, strict comparison. -/
def isModifiedAfter (fs : CacheFS) (src dest : String) : Bool :=
  mtimeGt (getModificationTime fs src .inf)
    (getModificationTime fs dest (.fin 0))

/-- `needsCacheRefresh` from the source: a missing artifact is stale;
otherwise the artifact is stale when the manifest or the project README was
modified after it. -/
def needsCacheRefresh (fs : CacheFS)
    (projectRoot transformationsFile : String) : Bool :=
  if !fsExists fs transformationsFile then true
  else
    isModifiedAfter fs (pathJoin projectRoot "elm.json") transformationsFile ||
    isModifiedAfter fs (pathJoin projectRoot "README.md") transformationsFile

/-- The cache artifact path computed inside `extractWithCache`:
`path.join(projectRoot, ELM_STUFF, "transformations.json")` — the source
computes it without consulting the test-mode flag, so the flag argument is
ignored. -/
def cacheArtifactPath (projectRoot : String) : Bool → String := fun _ =>
  pathJoin (pathJoin projectRoot "elm-stuff") "transformations.json"

/-- `extractWithCache` from the source: `refresh ? refresh :
needsCacheRefresh(...)`; when not stale, return the JSON-parsed artifact
content; when stale, recompute via `extract` and return the result.
Deserialization (`JSON.parse`) is abstracted as `jsonParse`, and the
recomputation `await extract(projectRoot, elmHome, test)` as
`extractResult`; the persisting write of the recomputed artifact has no
observable effect on the returned value and is not modelled. -/
def extractWithCache (fs : CacheFS) (jsonParse : String → List Transform)
    (extractResult : List Transform) (projectRoot : String)
    (testMode refresh : Bool) : List Transform :=
  if !(if refresh then refresh
       else needsCacheRefresh fs projectRoot
         (cacheArtifactPath projectRoot testMode)) then
    jsonParse (fs.read (cacheArtifactPath projectRoot testMode))
  else extractResult

/-- Staleness condition written from the claim's words: a source file whose
stat yields no usable mtime counts as `+infinity`, hence strictly newer than
any artifact; a present source is newer exactly when its mtime strictly
exceeds the artifact's (an artifact without usable mtime counting as 0). -/
def srcMtimeExceeds (fs : CacheFS) (src dest : String) : Bool :=
  match fs.stat src with
  | some (some s) =>
    match fs.stat dest with
    | some (some d2) => d2 < s
    | _ => 0 < s
  | _ => true

/-- The claim's recompute condition: force-refresh, or artifact absent, or
manifest newer, or documentation newer. -/
def staleSpec (fs : CacheFS) (projectRoot : String)
    (testMode refresh : Bool) : Bool :=
  refresh ||
  !(fs.stat (cacheArtifactPath projectRoot testMode)).isSome ||
  srcMtimeExceeds fs (pathJoin projectRoot "elm.json")
    (cacheArtifactPath projectRoot testMode) ||
  srcMtimeExceeds fs (pathJoin projectRoot "README.md")
    (cacheArtifactPath projectRoot testMode)

/-- The source's freshness test agrees with the claim's mtime comparison in
every file-system state. -/
theorem isModifiedAfter_eq (fs : CacheFS) (src dest : String) :
    isModifiedAfter fs src dest = srcMtimeExceeds fs src dest := by
  unfold isModifiedAfter srcMtimeExceeds getModificationTime
  cases hs : fs.stat src with
  | none =>
    cases hd : fs.stat dest with
    | none => rfl
    | some d2 => cases d2 <;> rfl
  | some s =>
    cases s with
    | none =>
      cases hd : fs.stat dest with
      | none => rfl
      | some d2 => cases d2 <;> rfl
    | some sv =>
      cases hd : fs.stat dest with
      | none => rfl
      | some d2 => cases d2 <;> rfl

/-- C4: `extractWithCache` recomputes (returning the freshly extracted rule
set) if and only if `refresh` is set, or the cache artifact is absent, or
the manifest (`elm.json`) or the project documentation (`README.md`) has a
modification time strictly greater than the artifact's — a source file
without a usable mtime counting as `+infinity`, hence always stale;
otherwise it returns the deserialized persisted artifact unchanged. -/
theorem extractWithCache_staleness (fs : CacheFS)
    (jsonParse : String → List Transform) (extractResult : List Transform)
    (projectRoot : String) (testMode refresh : Bool) :
    extractWithCache fs jsonParse extractResult projectRoot testMode refresh =
      if staleSpec fs projectRoot testMode refresh then extractResult
      else jsonParse (fs.read (cacheArtifactPath projectRoot testMode)) := by
  unfold extractWithCache staleSpec needsCacheRefresh fsExists
  rw [isModifiedAfter_eq, isModifiedAfter_eq]
  cases refresh with
  | true => simp
  | false =>
    cases hex : (fs.stat (cacheArtifactPath projectRoot testMode)).isSome with
    | false => simp [hex]
    | true =>
      cases h1 : srcMtimeExceeds fs (pathJoin projectRoot "elm.json")
          (cacheArtifactPath projectRoot testMode) with
      | true => simp [hex, h1]
      | false =>
        cases h2 : srcMtimeExceeds fs (pathJoin projectRoot "README.md")
            (cacheArtifactPath projectRoot testMode) with
        | true => simp [hex, h1, h2]
        | false => simp [hex, h1, h2]

/-- C9 counterexample: the cache artifact path the source computes is the
same for test mode and normal mode — `extractWithCache` in the current
script joins `projectRoot/elm-stuff/transformations.json` without consulting
the test flag — so the claimed two distinct per-mode paths do not exist. -/
theorem cacheArtifactPath_counterexample :
    cacheArtifactPath "proj" true = cacheArtifactPath "proj" false ∧
    cacheArtifactPath "proj" true = "proj/elm-stuff/transformations.json" :=
  ⟨rfl, by decide⟩

/-- C9 amended: the cache artifact lives at the single deterministic path
`<projectRoot>/elm-stuff/transformations.json` under the project's
build-output directory for BOTH modes: the path does not depend on the
test-mode flag, and consequently a fresh-cache read in test mode returns
exactly what a normal-mode read returns, whatever either mode's
recomputation would have produced. -/
theorem cacheArtifactPath_shared :
    (∀ (projectRoot : String) (t1 t2 : Bool),
      cacheArtifactPath projectRoot t1 = cacheArtifactPath projectRoot t2) ∧
    (∀ (projectRoot : String) (t : Bool),
      cacheArtifactPath projectRoot t =
        pathJoin (pathJoin projectRoot "elm-stuff") "transformations.json") ∧
    (∀ (fs : CacheFS) (jsonParse : String → List Transform)
        (er er2 : List Transform) (projectRoot : String),
      needsCacheRefresh fs projectRoot
          (cacheArtifactPath projectRoot true) = false →
      extractWithCache fs jsonParse er projectRoot true false =
        extractWithCache fs jsonParse er2 projectRoot false false) :=
  ⟨fun _ _ _ => rfl, fun _ _ => rfl,
   fun fs jsonParse er er2 projectRoot h => by
     have h2 : needsCacheRefresh fs projectRoot
         (cacheArtifactPath projectRoot false) = false := h
     unfold extractWithCache
     simp only [h, h2]
     rfl⟩

/-- Witness for the hypothesis-bearing part of the C9 theorem at a concrete
file system whose artifact (mtime 10) is newer than both sources (mtime 5):
the test-mode and normal-mode reads coincide even though the two modes'
would-be recomputations differ. -/
theorem cacheArtifactPath_shared_witness :
    extractWithCache
      ⟨fun p => if p = "r/elm-stuff/transformations.json" then some (some 10)
        else some (some 5), fun _ => "cached"⟩
      (fun _ => [⟨"f", "r"⟩]) [] "r" true false =
    extractWithCache
      ⟨fun p => if p = "r/elm-stuff/transformations.json" then some (some 10)
        else some (some 5), fun _ => "cached"⟩
      (fun _ => [⟨"f", "r"⟩]) [⟨"a", "b"⟩] "r" false false :=
  cacheArtifactPath_shared.2.2
    ⟨fun p => if p = "r/elm-stuff/transformations.json" then some (some 10)
      else some (some 5), fun _ => "cached"⟩
    (fun _ => [⟨"f", "r"⟩]) [] [⟨"a", "b"⟩] "r" (by decide)
